import Mathlib

/-!
Verification development for the coc-snippets snippet engine
(`src/ultisnipsProvider` — staged as `src/unnamed/part_000` — and
`src/src/provider.ts` with its `util` half).

The TypeScript is shallowly embedded: strings are `String` / `List Char`,
JS numbers that hold priorities or columns are `Int`, a JS `Map` is an
insertion-ordered association list, and the external collaborators (the
document's word classifier, the python evaluator behind `checkContext` /
`parser.execute`, a compiled `RegExp` attached to a snippet) are function
parameters.  Every definition mirrors the control flow of the quoted source
lines, including the places where that flow looks unintended.
-/

/-- The four trigger kinds of `types.ts` (`b`, `i`, `w` and the default
word-boundary option of an ultisnips snippet line). -/
inductive TriggerKind where
  | LineBegin
  | SpaceBefore
  | WordBoundary
  | InWord
deriving DecidableEq, Repr, BEq

/-- A parsed snippet definition.  `pfx` is the source's `prefix` field.
`regexMatch` stands for the compiled `regex` of a regex-option snippet:
`none` when the snippet has no regex, otherwise the function
`line ↦ first match of the pattern in line` (the behaviour of JS
`line.match(re)` used at part_000 lines 238 and 269). -/
structure Snippet where
  pfx : String
  body : String
  description : String
  priority : Int
  triggerKind : TriggerKind
  regexMatch : Option (String → Option String)
  context : Option String
  autoTrigger : Bool
  filepath : String

/-- A loaded snippet file (`UltiSnipsFile` of `types.ts`): the fields
`getSnippets` reads.  `clearsnippets` is the parsed `clearsnippets`
priority of the file, when the file declares one. -/
structure UltiSnipsFile where
  filepath : String
  filetype : String
  clearsnippets : Option Int
  snippets : List Snippet

/-- The comparator passed to `snippetFiles.sort` at part_000 lines 303-307,
restated as "a sorts before b" (comparator result below zero).  The source
comparator returns 1 for two files of one filetype, so it is inconsistent
there; the theorems below only instantiate file lists on which every
comparison-based sort agrees. -/
def fileBefore (filetype : String) (a b : UltiSnipsFile) : Bool :=
  if a.filetype == b.filetype then false
  else a.filetype == filetype

/-- Stable insertion of one file into an already sorted list. -/
def insertFile (le : UltiSnipsFile → UltiSnipsFile → Bool) (a : UltiSnipsFile) :
    List UltiSnipsFile → List UltiSnipsFile
  | [] => [a]
  | b :: l => if le a b then a :: b :: l else b :: insertFile le a l

/-- `snippetFiles.sort(comparator)` as a sort by `fileBefore`. -/
def sortFiles (filetype : String) : List UltiSnipsFile → List UltiSnipsFile
  | [] => []
  | a :: l => insertFile (fileBefore filetype) a (sortFiles filetype l)

/-- One step of the `for (let snip of snippets)` body at part_000 lines
313-327.  A regex- or context-carrying snippet is always pushed; otherwise
the first entry with the same `(prefix, triggerKind)` is looked up, and on a
higher incoming priority the source executes `result[idx] = item` — it
writes the *existing* item back, leaving the list unchanged. -/
def addSnippet (result : List Snippet) (snip : Snippet) : List Snippet :=
  if snip.regexMatch.isSome || snip.context.isSome then
    result ++ [snip]
  else
    match result.findIdx? (fun o => o.pfx == snip.pfx && o.triggerKind == snip.triggerKind) with
    | none => result ++ [snip]
    | some idx =>
      match result.get? idx with
      | some item => if snip.priority > item.priority then result.set idx item else result
      | none => result

/-- The `clearsnippets` accumulation at part_000 lines 310-312:
`min = min ? Math.max(min, clearsnippets) : clearsnippets`.  A JS `min`
of `null` *or of `0`* is falsy and is overwritten by the new value. -/
def combineClear (min : Option Int) (clearsnippets : Option Int) : Option Int :=
  match clearsnippets with
  | none => min
  | some c =>
    match min with
    | some m => if m ≠ 0 then some (Max.max m c) else some c
    | none => some c

/-- The per-file step of the loop at part_000 lines 308-328. -/
def getSnippetsStep (st : Option Int × List Snippet) (file : UltiSnipsFile) :
    Option Int × List Snippet :=
  (combineClear st.1 file.clearsnippets, file.snippets.foldl addSnippet st.2)

/-- `UltiSnippetsProvider.getSnippets` (part_000 lines 297-336).
`getFiletypes` stands for `BaseProvider.getFiletypes`, which lives outside
the staged sources: it maps the queried filetype to the list of filetypes
whose files are visible (the filetype itself plus its `extends`). -/
def getSnippets (getFiletypes : String → List String)
    (snippetFiles : List UltiSnipsFile) (filetype : String) : List Snippet :=
  let filetypes := getFiletypes filetype ++ ["all"]
  let files := snippetFiles.filter (fun (o : UltiSnipsFile) => filetypes.contains o.filetype)
  let sorted := sortFiles filetype files
  let st : Option Int × List Snippet := sorted.foldl getSnippetsStep (none, [])
  let result :=
    match st.1 with
    | some m => st.2.filter (fun (o : Snippet) => decide (o.priority ≥ m))
    | none => st.2
  result.filter (fun s => s.context.isSome) ++ result.filter (fun s => s.context.isNone)

/-- JS `String.prototype.trim` on a character list: whitespace stripped from
both ends (used for `pre.trim()` at part_000 line 245 and the `ahead.trim()`
checks of provider.ts). -/
def trimChars (l : List Char) : List Char :=
  ((l.dropWhile Char.isWhitespace).reverse.dropWhile Char.isWhitespace).reverse

/-- The predicate of `snippets.filter` at part_000 lines 234-249.
`isWord` is the host document's word-character classifier
(`document.isWord`), `autoTrigger` the optional argument of
`getTriggerSnippets`.  A regex snippet first re-binds the literal trigger to
the matched text, exactly as `prefix = ms[0]` does. -/
def filterSnippet (isWord : Char → Bool) (autoTrigger : Bool) (line : String)
    (s : Snippet) : Bool :=
  if autoTrigger && !s.autoTrigger then false
  else
    let pfxOpt : Option (List Char) :=
      match s.regexMatch with
      | some f =>
        match f line with
        | none => none
        | some ms => some ms.toList
      | none => some s.pfx.toList
    match pfxOpt with
    | none => false
    | some p =>
      if !(p.isSuffixOf line.toList) then false
      else if s.triggerKind == TriggerKind.InWord then true
      else
        let pre := line.toList.take (line.toList.length - p.length)
        if s.triggerKind == TriggerKind.LineBegin then trimChars pre == ([] : List Char)
        else if s.triggerKind == TriggerKind.SpaceBefore then
          pre.length == 0 || (match pre.getLast? with
            | some c => c.isWhitespace
            | none => false)
        else if s.triggerKind == TriggerKind.WordBoundary then
          pre.length == 0 || (match pre.getLast? with
            | some c => !isWord c
            | none => false)
        else false

/-- A trigger expansion (`SnippetEdit` of `types.ts`): the edit built at
part_000 lines 272-281.  Columns are `Int` because JS subtraction at line
267 is unchecked. -/
structure SnippetEdit where
  pfx : String
  description : String
  location : String
  priority : Int
  rangeStartChar : Int
  rangeEndChar : Int
  newText : String
deriving DecidableEq, Repr

/-- Lines 258-281 minus the loop: the edit built for one surviving snippet.
`resolveBody` stands for the asynchronous `resolveSnippetBody` round trip to
the python evaluator. -/
def mkEdit (resolveBody : Snippet → String) (line : String) (posChar : Nat)
    (s : Snippet) : SnippetEdit :=
  let character : Int :=
    match s.regexMatch with
    | none => (posChar : Int) - s.pfx.toList.length
    | some f => (posChar : Int) - (((f line).getD "").toList.length)
  { pfx := s.pfx, description := s.description, location := s.filepath,
    priority := s.priority, rangeStartChar := character,
    rangeEndChar := (posChar : Int), newText := resolveBody s }

/-- The `for (let s of snippets)` loop at part_000 lines 257-282.
`checkCtx` stands for the truthiness of `checkContext` on the guard source
(an evaluator failure is falsy).  Note the source pushes `s.context` — the
guard's text, not the snippet's prefix — into `contextPrefixes`. -/
def triggerLoop (checkCtx : String → Bool) (mk : Snippet → SnippetEdit) :
    List Snippet → List SnippetEdit → List String → List SnippetEdit
  | [], edits, _ => edits
  | s :: rest, edits, contextPrefixes =>
    match s.context with
    | some ctx =>
      if checkCtx ctx then
        triggerLoop checkCtx mk rest (edits ++ [mk s]) (contextPrefixes ++ [ctx])
      else
        triggerLoop checkCtx mk rest edits contextPrefixes
    | none =>
      if contextPrefixes.contains s.pfx then
        triggerLoop checkCtx mk rest edits contextPrefixes
      else
        triggerLoop checkCtx mk rest (edits ++ [mk s]) contextPrefixes

/-- `UltiSnippetsProvider.getTriggerSnippets` (part_000 lines 229-284).
The sort at lines 250-254 orders context snippets first and is otherwise
stable, which for a stable sort is the concatenation of the two filters
below.  `snippets` is what `getSnippets` resolved for the document's
filetype. -/
def getTriggerSnippets (isWord : Char → Bool) (checkCtx : String → Bool)
    (resolveBody : Snippet → String) (snippets : List Snippet)
    (fullLine : String) (posChar : Nat) (autoTrigger : Bool) : List SnippetEdit :=
  let line := String.mk (fullLine.toList.take posChar)
  if line.toList = [] ∨ line.toList.getLast? = some ' ' then []
  else
    let matched := snippets.filter (filterSnippet isWord autoTrigger line)
    let sorted := matched.filter (fun s => s.context.isSome) ++
      matched.filter (fun s => s.context.isNone)
    triggerLoop checkCtx (mkEdit resolveBody line posChar) sorted [] []

/-- The inner dedup step of `ProviderManager.getTriggerSnippets`
(provider.ts lines 57-61): push the item unless an edit with its prefix is
already in the list. -/
def dedupStep (list : List SnippetEdit) (item : SnippetEdit) : List SnippetEdit :=
  if (list.findIdx? (fun o => o.pfx == item.pfx)).isSome then list else list ++ [item]

/-- `ProviderManager.getTriggerSnippets` (provider.ts lines 49-64): the
providers are iterated in registration order, each contributing the edits
its own `getTriggerSnippets` returned, deduplicated by prefix. -/
def managerGetTriggerSnippets (providerResults : List (List SnippetEdit)) :
    List SnippetEdit :=
  providerResults.foldl (fun list items => items.foldl dedupStep list) []

/-- JS `\w`: ASCII letters, digits and underscore. -/
def isWordChar (c : Char) : Bool :=
  c.isAlphanum || c == '_'

/-- `needle` is a prefix of `hay` (character-exact). -/
def startsWithL : List Char → List Char → Bool
  | [], _ => true
  | _ :: _, [] => false
  | a :: as, b :: bs => a == b && startsWithL as bs

/-- JS `str.indexOf(needle) !== -1`: `needle` occurs inside `hay`. -/
def containsSub (needle : List Char) : List Char → Bool
  | [] => startsWithL needle []
  | c :: rest => startsWithL needle (c :: rest) || containsSub needle rest

/-- The lazy tail `.*?\)` of `commentRe` and `namedCaptureRe`: the length of
the shortest run of non-newline characters ending at a `)` (a `.` in a JS
regex without the `s` flag never matches a newline). -/
def lazyToParen : List Char → Option Nat
  | [] => none
  | c :: rest =>
    if c == ')' then some 1
    else if c == '\n' then none
    else (lazyToParen rest).map (· + 1)

/-- A match of `commentRe = /\(\?#.*?\)/` at the head of `l`: its length. -/
def matchComment (l : List Char) : Option Nat :=
  if startsWithL ['(', '?', '#'] l then (lazyToParen (l.drop 3)).map (· + 3)
  else none

/-- A match of `namedCaptureRe = /\(\?P<\w+>.*?\)/` at the head of `l`. -/
def matchNamedCapture (l : List Char) : Option Nat :=
  if startsWithL ['(', '?', 'P', '<'] l then
    let rest := l.drop 4
    let w := rest.takeWhile isWordChar
    if w.length == 0 then none
    else
      match rest.drop w.length with
      | '>' :: rest2 => (lazyToParen rest2).map (fun n => 4 + w.length + 1 + n)
      | _ => none
  else none

/-- A match of `namedReferenceRe = /\(\?P=(\w+)\)/` at the head of `l`:
its length and the captured group name. -/
def matchNamedRef (l : List Char) : Option (Nat × List Char) :=
  if startsWithL ['(', '?', 'P', '='] l then
    let rest := l.drop 4
    let w := rest.takeWhile isWordChar
    if w.length == 0 then none
    else
      match rest.drop w.length with
      | ')' :: _ => some (4 + w.length + 1, w)
      | _ => none
  else none

/-- The global replace regex of util.ts line 302.  The last alternative is
interpolated as `${braceRe}` — the RegExp object stringified *with its
slashes* — so it is the four literal characters `/^]/`, not `\^\]`.
A match at the head of `l`: the matched characters and the
`namedReferenceRe` capture when that alternative matched. -/
def matchAt (l : List Char) : Option (List Char × Option (List Char)) :=
  if startsWithL ['\\', 'a'] l then some (['\\', 'a'], none)
  else
    match matchComment l with
    | some n => some (l.take n, none)
    | none =>
      if startsWithL ['\\', 'A'] l then some (['\\', 'A'], none)
      else
        match matchNamedCapture l with
        | some n => some (l.take n, none)
        | none =>
          match matchNamedRef l with
          | some (n, w) => some (l.take n, some w)
          | none =>
            if startsWithL ['/', '^', ']', '/'] l then
              some (['/', '^', ']', '/'], none)
            else none

/-- The replacement callback of util.ts lines 328-336, applied to one match
`m` with capture `p1`. -/
def replacement (m : List Char) (p1 : Option (List Char)) : List Char :=
  if m == ['^', ']'] then ['^', '\\', ']']
  else if m == ['\\', 'a'] then []
  else if startsWithL ['(', '?', '#'] m then []
  else if m == ['\\', 'A'] then ['^']
  else if startsWithL ['(', '?', 'P', '<'] m then ['(', '?'] ++ m.drop 3
  else if startsWithL ['(', '?', 'P', '='] m then
    ['\\', 'k', '<'] ++ p1.getD [] ++ ['>']
  else []

/-- `str.replace(regex, callback)` with the global flag: scan left to right,
replace the leftmost match and continue after its end (never rescanning the
replacement), copy one character otherwise.  Fuel is the input length; every
match is at least one character long, so the fuel never runs out. -/
def replaceScan : Nat → List Char → List Char
  | 0, l => l
  | _ + 1, [] => []
  | fuel + 1, c :: rest =>
    match matchAt (c :: rest) with
    | some (m, p1) => replacement m p1 ++ replaceScan fuel ((c :: rest).drop m.length)
    | none => c :: replaceScan fuel rest

/-- Some position of `l` starts a match of the replace regex. -/
def hasMatch : List Char → Bool
  | [] => false
  | c :: rest => (matchAt (c :: rest)).isSome || hasMatch rest

/-- The trailing `.+\|` of `conditionRe`: at least one non-newline
character, then a `|` (with backtracking, this holds exactly when a `|`
appears after ≥ 1 characters none of which is a newline). -/
def barSearch : List Char → Bool
  | [] => false
  | c :: rest => c == '|' || (c != '\n' && barSearch rest)

/-- `.+\|` anchored at the head of `l`. -/
def dotPlusBar : List Char → Bool
  | [] => false
  | c :: rest => c != '\n' && barSearch rest

/-- A match of `conditionRe = /\(\?\(\?:\w+\).+\|/` anchored at the head of
`l`: the five literal characters `(?(?:`, one or more word characters, `)`,
then `.+\|`. -/
def condAt (l : List Char) : Bool :=
  startsWithL ['(', '?', '(', '?', ':'] l &&
    (let rest := l.drop 5
     let w := rest.takeWhile isWordChar
     w.length != 0 &&
       match rest.dropWhile isWordChar with
       | ')' :: rest2 => dotPlusBar rest2
       | _ => false)

/-- `conditionRe.test(str)`: a match at some position. -/
def condTest : List Char → Bool
  | [] => false
  | c :: rest => condAt (c :: rest) || condTest rest

/-- `convertRegex` (util.ts lines 312-337): the five validation checks in
source order, then the global replace. -/
def convertRegex (str : String) : Except String String :=
  let l := str.toList
  if containsSub ['\\', 'z'] l then Except.error "pattern \\z not supported"
  else if containsSub ['(', '?', 's', ')'] l then Except.error "pattern (?s) not supported"
  else if containsSub ['(', '?', 'x', ')'] l then Except.error "pattern (?x) not supported"
  else if containsSub ['\n'] l then Except.error "multiple line pattern not supported"
  else if condTest l then Except.error "condition pattern not supported"
  else Except.ok (String.mk (replaceScan l.length l))

/-- A match of the placeholder regex `/\$\{(\d+)(?::([^}]+))?\}/` at the
head of `l`: total length, parsed index, and the default text when the
optional `:default` group matched (that group needs at least one
non-`}` character). -/
def matchPlaceholder (l : List Char) : Option (Nat × Nat × Option (List Char)) :=
  match l with
  | '$' :: '{' :: rest =>
    let d := rest.takeWhile Char.isDigit
    if d.length == 0 then none
    else
      let idx := d.foldl (fun n c => n * 10 + (c.toNat - '0'.toNat)) 0
      match rest.drop d.length with
      | '}' :: _ => some (2 + d.length + 1, idx, none)
      | ':' :: rest2 =>
        let t := rest2.takeWhile (fun c => c != '}')
        if t.length == 0 then none
        else
          match rest2.drop t.length with
          | '}' :: _ => some (2 + d.length + 1 + t.length + 1, idx, some t)
          | _ => none
      | _ => none
  | _ => none

/-- The matches of the first `while (r = re.exec(body))` loop at part_000
lines 143-146, in order: a global `exec` loop restarts after each match's
end.  Fuel is the input length. -/
def scanBraced : Nat → List Char → List (Nat × Option (List Char))
  | 0, _ => []
  | _ + 1, [] => []
  | fuel + 1, c :: rest =>
    match matchPlaceholder (c :: rest) with
    | some (len, idx, d) => (idx, d) :: scanBraced fuel ((c :: rest).drop len)
    | none => scanBraced fuel rest

/-- The matches of the second loop's regex `/\$(\d+)/g` (part_000 lines
164-171), in order. -/
def scanPlain : Nat → List Char → List Nat
  | 0, _ => []
  | _ + 1, [] => []
  | fuel + 1, '$' :: rest =>
    let d := rest.takeWhile Char.isDigit
    if d.length == 0 then scanPlain fuel rest
    else d.foldl (fun n c => n * 10 + (c.toNat - '0'.toNat)) 0 :: scanPlain fuel (rest.drop d.length)
  | fuel + 1, _ :: rest => scanPlain fuel rest

/-- `values.get(idx)` on an insertion-ordered association list. -/
def mapGet (values : List (Nat × String)) (k : Nat) : Option String :=
  (values.find? (fun p => p.1 == k)).map (fun p => p.2)

/-- `values.set(idx, v)`: overwrite in place, else append. -/
def mapSet (values : List (Nat × String)) (k : Nat) (v : String) : List (Nat × String) :=
  if (values.find? (fun p => p.1 == k)).isSome then
    values.map (fun p => if p.1 == k then (k, v) else p)
  else values ++ [(k, v)]

/-- `val.replace(/'/g, "\\'").replace(/\n/g, '\\n')` (part_000 line 160). -/
def escapeVal (l : List Char) : List Char :=
  l.foldr (fun c acc =>
    if c == '\'' then '\\' :: '\'' :: acc
    else if c == '\n' then '\\' :: 'n' :: acc
    else c :: acc) []

/-- Lines 151-159: a default that is itself a backtick scriptlet
(`/^`!\w/` and a trailing backtick) is replaced by the evaluator's result —
empty for a `!p` block, which cannot run yet — and any other default passes
through.  `execPy` stands for `parser.execute(code, pyMethod, ind)`. -/
def processVal (execPy : String → String) (val : List Char) : List Char :=
  let isScriptlet :=
    match val with
    | '`' :: '!' :: c :: _ => isWordChar c && val.getLast? == some '`'
    | _ => false
  if isScriptlet then
    let code := (val.drop 1).dropLast
    if startsWithL ['!', 'p'] code then []
    else (execPy (String.mk code)).toList
  else val

/-- The body of the first `while` loop (part_000 lines 146-163) for one
placeholder occurrence.  The guard is
`exists == null || (val && exists == "''")`: note that the values this very
loop stores all start with `r'`, so its `exists == "''"` comparison can
never be true. -/
def recordValue (execPy : String → String) (values : List (Nat × String))
    (occ : Nat × Option (List Char)) : List (Nat × String) :=
  let val : List Char := (occ.2).getD []
  let shouldSet :=
    match mapGet values occ.1 with
    | none => true
    | some ex => val.length != 0 && ex == "''"
  if shouldSet then
    mapSet values occ.1 (String.mk ('r' :: '\'' :: escapeVal (processVal execPy val) ++ ['\'']))
  else values

/-- The body of the second `while` loop (part_000 lines 166-171): a plain
`$n` tab stop records `''` when the index has no value yet. -/
def recordPlain (values : List (Nat × String)) (idx : Nat) : List (Nat × String) :=
  if (mapGet values idx).isSome then values else mapSet values idx "''"

/-- The placeholder-value scan of `resolveSnippetBody` (part_000 lines
142-171), run when the body holds a `` `!p `` scriptlet: first all
`${n}` / `${n:default}` occurrences, then all plain `$n` occurrences. -/
def buildPlaceholderValues (execPy : String → String) (body : String) :
    List (Nat × String) :=
  let l := body.toList
  (scanPlain l.length l).foldl recordPlain
    ((scanBraced l.length l).foldl (recordValue execPy) [])

/-! ## Bridge lemmas between the executable checks and their mathematical
statements -/

theorem startsWithL_prefix_iff (n : List Char) : ∀ l, startsWithL n l = true ↔ n <+: l := by
  induction n with
  | nil => intro l; simp [startsWithL, List.nil_prefix]
  | cons a as ih =>
    intro l
    cases l with
    | nil => simp [startsWithL, List.prefix_nil]
    | cons b bs => simp [startsWithL, List.cons_prefix_cons, ih bs]

theorem containsSub_iff_infix (n : List Char) : ∀ l, containsSub n l = true ↔ n <:+: l := by
  intro l
  induction l with
  | nil => simp [containsSub, startsWithL_prefix_iff, List.prefix_nil, List.infix_nil]
  | cons c rest ih =>
    simp [containsSub, startsWithL_prefix_iff, List.infix_cons_iff, ih]

theorem isSuffixOf_iff_suffix (l₁ l₂ : List Char) : l₁.isSuffixOf l₂ = true ↔ l₁ <:+ l₂ := by
  rw [List.isSuffixOf, List.isPrefixOf_iff_prefix, List.reverse_prefix]

theorem trimChars_eq_nil_iff (l : List Char) :
    trimChars l = [] ↔ ∀ c ∈ l, c.isWhitespace = true := by
  unfold trimChars
  constructor
  · intro h c hc
    have h2 : (l.dropWhile Char.isWhitespace).reverse.dropWhile Char.isWhitespace = [] := by
      simpa using congrArg List.reverse h
    have h3 : ∀ x ∈ (l.dropWhile Char.isWhitespace).reverse, x.isWhitespace = true :=
      List.dropWhile_eq_nil_iff.mp h2
    have h4 : ∀ x ∈ l.dropWhile Char.isWhitespace, x.isWhitespace = true := by
      intro x hx; exact h3 x (List.mem_reverse.mpr hx)
    have h5 : l = l.takeWhile Char.isWhitespace ++ l.dropWhile Char.isWhitespace :=
      (List.takeWhile_append_dropWhile Char.isWhitespace l).symm
    rw [h5] at hc
    rcases List.mem_append.mp hc with h6 | h6
    · exact List.mem_takeWhile_imp h6
    · exact h4 c h6
  · intro h
    have h2 : l.dropWhile Char.isWhitespace = [] :=
      List.dropWhile_eq_nil_iff.mpr h
    simp [h2]

theorem takeWhile_append_run {p : Char → Bool} {w : List Char} {x : Char} {r : List Char}
    (hw : ∀ c ∈ w, p c = true) (hx : p x = false) :
    (w ++ x :: r).takeWhile p = w ∧ (w ++ x :: r).dropWhile p = x :: r := by
  induction w with
  | nil => simp [List.takeWhile_cons, List.dropWhile_cons, hx]
  | cons a as ih =>
    have ha : p a = true := hw a (by simp)
    have ih2 := ih (fun c hc => hw c (by simp [hc]))
    simp [List.takeWhile_cons, List.dropWhile_cons, ha, ih2.1, ih2.2]

theorem barSearch_iff (l : List Char) :
    barSearch l = true ↔ ∃ mid post, l = mid ++ '|' :: post ∧ ∀ c ∈ mid, c ≠ '\n' := by
  induction l with
  | nil =>
    simp only [barSearch, Bool.false_eq_true, false_iff]
    rintro ⟨mid, post, h, -⟩
    exact absurd h (by simp)
  | cons c rest ih =>
    simp only [barSearch, Bool.or_eq_true, Bool.and_eq_true, beq_iff_eq, bne_iff_ne, ih]
    constructor
    · rintro (rfl | ⟨hc, mid, post, rfl, hmid⟩)
      · exact ⟨[], rest, rfl, by simp⟩
      · exact ⟨c :: mid, post, rfl, by
          intro x hx
          rcases List.mem_cons.mp hx with rfl | hx
          · exact hc
          · exact hmid x hx⟩
    · rintro ⟨mid, post, h, hmid⟩
      cases mid with
      | nil =>
        left
        have h2 : c = '|' ∧ rest = post := by simpa using h
        exact h2.1
      | cons m ms =>
        right
        have h2 : c = m ∧ rest = ms ++ '|' :: post := by simpa using h
        exact ⟨h2.1 ▸ hmid m (by simp), ms, post, h2.2,
          fun x hx => hmid x (by simp [hx])⟩

theorem dotPlusBar_iff (l : List Char) :
    dotPlusBar l = true ↔
      ∃ mid post, l = mid ++ '|' :: post ∧ mid ≠ [] ∧ ∀ c ∈ mid, c ≠ '\n' := by
  cases l with
  | nil =>
    simp only [dotPlusBar, Bool.false_eq_true, false_iff]
    rintro ⟨mid, post, h, -, -⟩
    exact absurd h (by simp)
  | cons c rest =>
    simp only [dotPlusBar, Bool.and_eq_true, bne_iff_ne, barSearch_iff]
    constructor
    · rintro ⟨hc, mid, post, rfl, hmid⟩
      refine ⟨c :: mid, post, rfl, by simp, ?_⟩
      intro x hx
      rcases List.mem_cons.mp hx with rfl | hx
      · exact hc
      · exact hmid x hx
    · rintro ⟨mid, post, h, hne, hmid⟩
      cases mid with
      | nil => exact absurd rfl hne
      | cons m ms =>
        have h2 : c = m ∧ rest = ms ++ '|' :: post := by simpa using h
        exact ⟨h2.1 ▸ hmid m (by simp), ms, post, h2.2,
          fun x hx => hmid x (by simp [hx])⟩


theorem condAt_iff (l : List Char) :
    condAt l = true ↔
      ∃ w mid post,
        l = ['(', '?', '(', '?', ':'] ++ (w ++ ')' :: (mid ++ '|' :: post)) ∧
        w ≠ [] ∧ (∀ c ∈ w, isWordChar c = true) ∧
        mid ≠ [] ∧ (∀ c ∈ mid, c ≠ '\n') := by
  constructor
  · intro h
    rw [condAt, Bool.and_eq_true] at h
    obtain ⟨rest, hrest⟩ := (startsWithL_prefix_iff _ l).mp h.1
    obtain ⟨-, h2⟩ := h
    subst hrest
    simp only [List.cons_append, List.nil_append, List.drop_succ_cons,
      List.drop_zero, Bool.and_eq_true, bne_iff_ne, ne_eq] at h2
    obtain ⟨hlen, h2⟩ := h2
    cases hdw : rest.dropWhile isWordChar with
    | nil => rw [hdw] at h2; exact absurd h2 (by simp)
    | cons x rest2 =>
      rw [hdw] at h2
      by_cases hx : x = ')'
      · subst hx
        obtain ⟨mid, post, hmp, hne, hnn⟩ := (dotPlusBar_iff rest2).mp h2
        refine ⟨rest.takeWhile isWordChar, mid, post, ?_,
          fun hw => hlen (by simp [hw]),
          fun c hc => List.mem_takeWhile_imp hc, hne, hnn⟩
        have hsplit : rest.takeWhile isWordChar ++ ')' :: rest2 = rest := by
          conv_rhs => rw [← List.takeWhile_append_dropWhile isWordChar rest]
          rw [hdw]
        rw [← hmp, hsplit]
      · exfalso
        have hfalse : (match (x :: rest2 : List Char) with
            | ')' :: rest2 => dotPlusBar rest2
            | _ => false) = false := by
          split
          · rename_i t heq
            have h1 : x = ')' ∧ rest2 = t := by simpa using heq
            exact absurd h1.1 hx
          · rfl
        rw [hfalse] at h2
        exact Bool.false_ne_true h2
  · rintro ⟨w, mid, post, rfl, hne, hword, hmidne, hmidnn⟩
    have hpar : isWordChar ')' = false := rfl
    have hrun := takeWhile_append_run (p := isWordChar) (x := ')')
      (r := mid ++ '|' :: post) hword hpar
    have hdpb : dotPlusBar (mid ++ '|' :: post) = true :=
      (dotPlusBar_iff _).mpr ⟨mid, post, rfl, hmidne, hmidnn⟩
    rw [condAt]
    simp only [List.cons_append, List.nil_append, startsWithL, beq_self_eq_true,
      Bool.true_and, List.drop_succ_cons, List.drop_zero, hrun.1, hrun.2]
    simp [hne, hdpb, List.length_eq_zero]

theorem condTest_iff (l : List Char) :
    condTest l = true ↔ ∃ u v, l = u ++ v ∧ condAt v = true := by
  induction l with
  | nil =>
    simp only [condTest, Bool.false_eq_true, false_iff]
    rintro ⟨u, v, h, hv⟩
    obtain ⟨hu, hv'⟩ := List.append_eq_nil.mp h.symm
    subst hv'
    exact absurd hv (by decide)
  | cons c rest ih =>
    simp only [condTest, Bool.or_eq_true, ih]
    constructor
    · rintro (h | ⟨u, v, rfl, hv⟩)
      · exact ⟨[], c :: rest, rfl, h⟩
      · exact ⟨c :: u, v, rfl, hv⟩
    · rintro ⟨u, v, h, hv⟩
      cases u with
      | nil =>
        left
        have h2 : c :: rest = v := by simpa using h
        exact h2 ▸ hv
      | cons a u' =>
        right
        have h2 : c = a ∧ rest = u' ++ v := by simpa using h
        exact ⟨u', v, h2.2, hv⟩

theorem convertRegex_error_iff (s : String) :
    (∃ msg, convertRegex s = Except.error msg) ↔
      (containsSub ['\\', 'z'] s.toList = true ∨
       containsSub ['(', '?', 's', ')'] s.toList = true ∨
       containsSub ['(', '?', 'x', ')'] s.toList = true ∨
       containsSub ['\n'] s.toList = true ∨
       condTest s.toList = true) := by
  rw [convertRegex]
  by_cases h1 : containsSub ['\\', 'z'] s.data = true
  · simp [h1]
  by_cases h2 : containsSub ['(', '?', 's', ')'] s.data = true
  · simp [h1, h2]
  by_cases h3 : containsSub ['(', '?', 'x', ')'] s.data = true
  · simp [h1, h2, h3]
  by_cases h4 : containsSub ['\n'] s.data = true
  · simp [h1, h2, h3, h4]
  by_cases h5 : condTest s.data = true
  · simp [h1, h2, h3, h4, h5]
  · simp [h1, h2, h3, h4, h5]

theorem replaceScan_no_match :
    ∀ (fuel : Nat) (l : List Char), hasMatch l = false → replaceScan fuel l = l := by
  intro fuel
  induction fuel with
  | zero => intro l _; rfl
  | succ f ih =>
    intro l h
    cases l with
    | nil => rfl
    | cons c rest =>
      rw [hasMatch, Bool.or_eq_false_iff] at h
      have h3 : matchAt (c :: rest) = none :=
        Option.not_isSome_iff_eq_none.mp (by simp [h.1])
      rw [replaceScan, h3]
      rw [ih rest h.2]

theorem condTest_decomp (l : List Char) :
    condTest l = true ↔
      ∃ pre w mid post,
        l = pre ++ (['(', '?', '(', '?', ':'] ++ (w ++ ')' :: (mid ++ '|' :: post))) ∧
        w ≠ [] ∧ (∀ c ∈ w, isWordChar c = true) ∧
        mid ≠ [] ∧ (∀ c ∈ mid, c ≠ '\n') := by
  rw [condTest_iff]
  constructor
  · rintro ⟨u, v, rfl, hv⟩
    obtain ⟨w, mid, post, rfl, hne, hword, hmidne, hmidnn⟩ := (condAt_iff v).mp hv
    exact ⟨u, w, mid, post, rfl, hne, hword, hmidne, hmidnn⟩
  · rintro ⟨pre, w, mid, post, rfl, hne, hword, hmidne, hmidnn⟩
    exact ⟨pre, _, rfl, (condAt_iff _).mpr ⟨w, mid, post, rfl, hne, hword, hmidne, hmidnn⟩⟩

/-- C6 counterexample: a regex conditional written in the usual
`(?(cond)yes|no)` style is *not* rejected — `convertRegex` returns it
unchanged — because `conditionRe` demands the characters `(?(?:` and a
plain `(?(1)`-style condition never contains them. -/
theorem c6_conditional_accepted :
    convertRegex "(?(1)yes|no)" = Except.ok "(?(1)yes|no)" := rfl

/-- C6 (amended): `convertRegex` fails exactly when the input contains
`\z`, `(?s)`, `(?x)`, a literal newline, or a substring of the shape
`(?(?:` + word characters + `)` + at least one non-newline character +
`|` (the only thing `conditionRe = /\(\?\(\?:\w+\).+\|/` can match) —
not when it contains an ordinary `(?(cond)yes|no)` conditional. -/
theorem c6_reject_set (s : String) :
    (∃ msg, convertRegex s = Except.error msg) ↔
      (['\\', 'z'] <:+: s.toList ∨
       ['(', '?', 's', ')'] <:+: s.toList ∨
       ['(', '?', 'x', ')'] <:+: s.toList ∨
       ['\n'] <:+: s.toList ∨
       ∃ pre w mid post,
         s.toList = pre ++ (['(', '?', '(', '?', ':'] ++ (w ++ ')' :: (mid ++ '|' :: post))) ∧
         w ≠ [] ∧ (∀ c ∈ w, isWordChar c = true) ∧
         mid ≠ [] ∧ (∀ c ∈ mid, c ≠ '\n')) := by
  rw [convertRegex_error_iff, condTest_decomp,
    containsSub_iff_infix, containsSub_iff_infix, containsSub_iff_infix,
    containsSub_iff_infix]

/-- C7: the `^]` → `^\]` rewrite documented for character classes never
happens: the replace regex was built with `${braceRe}` instead of
`${braceRe.source}`, so its last alternative is the literal text `/^]/`.
An input holding `^]` comes back unchanged, an input holding the four
characters `/^]/` has them deleted, while the other documented
substitutions (`\A`, `(?#...)`, `(?P<...>`, `(?P=...)`, `\a`) do happen. -/
theorem c7_bracket_class_unescaped :
    convertRegex "[^]foo]" = Except.ok "[^]foo]" ∧
    convertRegex "/^]/" = Except.ok "" ∧
    convertRegex "\\A(?#c)(?P<n>x)(?P=n)\\a" = Except.ok "^(?<n>x)\\k<n>" :=
  ⟨rfl, rfl, rfl⟩

/-- C8 counterexample: translation is not idempotent.  Deleting the comment
group of `\(?#x)a` glues `\` to `a`, and the second translation deletes the
freshly created `\a`: `translate (translate "\(?#x)a")` is `""`, not
`"\a"`. -/
theorem c8_not_idempotent :
    convertRegex "\\(?#x)a" = Except.ok "\\a" ∧
    convertRegex "\\a" = Except.ok "" ∧
    ("" : String) ≠ "\\a" :=
  ⟨rfl, rfl, by decide⟩

/-- C8 (amended): translating twice yields the same string *provided* the
first translation's output is itself free of the rejected constructs and of
every construct the replace regex rewrites; in general a replacement can
create a new construct and break idempotence (see the counterexample). -/
theorem c8_idempotent_on_clean_output (p q : String)
    (h : convertRegex p = Except.ok q)
    (h1 : hasMatch q.toList = false)
    (h2 : containsSub ['\\', 'z'] q.toList = false)
    (h3 : containsSub ['(', '?', 's', ')'] q.toList = false)
    (h4 : containsSub ['(', '?', 'x', ')'] q.toList = false)
    (h5 : containsSub ['\n'] q.toList = false)
    (h6 : condTest q.toList = false) :
    convertRegex q = Except.ok q := by
  rw [convertRegex]
  simp only [h2, h3, h4, h5, h6, Bool.false_eq_true, if_false]
  rw [replaceScan_no_match _ _ h1]
  rfl

/-- Witness for the amended C8: `(?P<n>x)` translates to `(?<n>x)`, whose
own translation is itself. -/
theorem c8_idempotent_witness :
    convertRegex "(?<n>x)" = Except.ok "(?<n>x)" :=
  c8_idempotent_on_clean_output "(?P<n>x)" "(?<n>x)" rfl rfl rfl rfl rfl rfl rfl

theorem lastCheck_iff (pre : List Char) (test : Char → Bool) :
    (pre.length == 0 || (match pre.getLast? with
      | some c => test c
      | none => false)) = true ↔
    (pre = [] ∨ ∃ c, pre.getLast? = some c ∧ test c = true) := by
  cases hgl : pre.getLast? with
  | none =>
    have hnil : pre = [] := List.getLast?_eq_none_iff.mp hgl
    subst hnil
    simp
  | some c =>
    have hne : pre ≠ [] := by
      intro hh
      subst hh
      simp at hgl
    simp only [Bool.or_eq_true, beq_iff_eq, List.length_eq_zero]
    constructor
    · rintro (rfl | ht)
      · exact absurd rfl hne
      · exact Or.inr ⟨c, rfl, ht⟩
    · rintro (rfl | ⟨c', hc', ht⟩)
      · exact absurd rfl hne
      · right
        have hcc : c = c' := Option.some.inj hc'
        rw [hcc]
        exact ht

/-- C5: the boundary rule of each trigger kind, for a literal-prefix
candidate whose prefix ends the line text before the cursor (and which the
autoTrigger check does not discard): `LineBegin` matches exactly when
everything before the trigger is whitespace, `SpaceBefore` exactly when the
trigger starts the line or a whitespace character precedes it, and
`WordBoundary` exactly when the trigger starts the line or a non-word
character precedes it. -/
theorem c5_boundary_rules (isWord : Char → Bool) (auto : Bool) (line : String)
    (s : Snippet)
    (h1 : s.regexMatch = none)
    (h2 : s.pfx.toList <:+ line.toList)
    (h3 : (auto && !s.autoTrigger) = false) :
    (s.triggerKind = TriggerKind.LineBegin →
      (filterSnippet isWord auto line s = true ↔
        ∀ c ∈ line.toList.take (line.toList.length - s.pfx.toList.length),
          c.isWhitespace = true)) ∧
    (s.triggerKind = TriggerKind.SpaceBefore →
      (filterSnippet isWord auto line s = true ↔
        (line.toList.take (line.toList.length - s.pfx.toList.length) = [] ∨
         ∃ c, (line.toList.take (line.toList.length - s.pfx.toList.length)).getLast? = some c ∧
           c.isWhitespace = true))) ∧
    (s.triggerKind = TriggerKind.WordBoundary →
      (filterSnippet isWord auto line s = true ↔
        (line.toList.take (line.toList.length - s.pfx.toList.length) = [] ∨
         ∃ c, (line.toList.take (line.toList.length - s.pfx.toList.length)).getLast? = some c ∧
           isWord c = false))) := by
  have hsuf : s.pfx.toList.isSuffixOf line.toList = true :=
    (isSuffixOf_iff_suffix _ _).mpr h2
  refine ⟨fun hk => ?_, fun hk => ?_, fun hk => ?_⟩
  · rw [filterSnippet]
    simp only [h1, h3, hsuf, hk, Bool.false_eq_true, if_false, Bool.not_true,
      Bool.false_eq_true]
    simp only [show (TriggerKind.LineBegin == TriggerKind.InWord) = false from rfl,
      show (TriggerKind.LineBegin == TriggerKind.LineBegin) = true from rfl,
      Bool.false_eq_true, if_false, if_true]
    rw [beq_iff_eq, trimChars_eq_nil_iff]
  · rw [filterSnippet]
    simp only [h1, h3, hsuf, hk, Bool.false_eq_true, if_false, Bool.not_true]
    simp only [show (TriggerKind.SpaceBefore == TriggerKind.InWord) = false from rfl,
      show (TriggerKind.SpaceBefore == TriggerKind.LineBegin) = false from rfl,
      show (TriggerKind.SpaceBefore == TriggerKind.SpaceBefore) = true from rfl,
      Bool.false_eq_true, if_false, if_true]
    exact lastCheck_iff _ _
  · rw [filterSnippet]
    simp only [h1, h3, hsuf, hk, Bool.false_eq_true, if_false, Bool.not_true]
    simp only [show (TriggerKind.WordBoundary == TriggerKind.InWord) = false from rfl,
      show (TriggerKind.WordBoundary == TriggerKind.LineBegin) = false from rfl,
      show (TriggerKind.WordBoundary == TriggerKind.SpaceBefore) = false from rfl,
      show (TriggerKind.WordBoundary == TriggerKind.WordBoundary) = true from rfl,
      Bool.false_eq_true, if_false, if_true]
    rw [lastCheck_iff _ (fun c => !isWord c)]
    simp only [Bool.not_eq_true']

/-- Witness for C5: line `"  foo"`, prefix `"foo"`, `LineBegin` matches. -/
theorem c5_boundary_rules_witness :
    filterSnippet (fun c => c.isAlphanum) false "  foo"
      { pfx := "foo", body := "", description := "", priority := 0,
        triggerKind := TriggerKind.LineBegin, regexMatch := none, context := none,
        autoTrigger := false, filepath := "" } = true :=
  ((c5_boundary_rules (fun c => c.isAlphanum) false "  foo"
      { pfx := "foo", body := "", description := "", priority := 0,
        triggerKind := TriggerKind.LineBegin, regexMatch := none, context := none,
        autoTrigger := false, filepath := "" }
      rfl (by decide) rfl).1 rfl).mpr (by decide)

/-- C4 counterexample: with automatic matching *not* requested
(`autoTrigger` argument `false`), a snippet whose `autoTrigger` flag is set
still matches and is returned — the claim says it must be excluded. -/
theorem c4_autotrigger_claim_false :
    (getTriggerSnippets (fun _ => false) (fun _ => true) (fun s => s.body)
      [{ pfx := "ab", body := "B", description := "", priority := 0,
         triggerKind := TriggerKind.InWord, regexMatch := none, context := none,
         autoTrigger := true, filepath := "f" }] "ab" 2 false).map
        (fun e => e.pfx) = ["ab"] := rfl

/-- C4 (amended): the check `if (autoTrigger && !s.autoTrigger) return false`
runs the other way round: when automatic matching *is* requested, a
candidate without the `autoTrigger` flag never matches; when it is not
requested, the flag plays no part in matching at all. -/
theorem c4_autotrigger_direction (isWord : Char → Bool) (line : String) (s : Snippet) :
    (filterSnippet isWord true line { s with autoTrigger := false } = false) ∧
    (∀ b, filterSnippet isWord false line s =
      filterSnippet isWord false line { s with autoTrigger := b }) :=
  ⟨rfl, fun _ => rfl⟩

/-- The two snippet definitions of the C1 scenario: file A's `imp` at
priority 0 and file B's `imp` at priority 10, neither with regex nor
context. -/
def impA : Snippet :=
  { pfx := "imp", body := "import ${1}", description := "", priority := 0,
    triggerKind := TriggerKind.WordBoundary, regexMatch := none,
    context := none, autoTrigger := false, filepath := "/py/A.snippets" }

/-- File B's higher-priority `imp` definition (C1 scenario). -/
def impB : Snippet :=
  { pfx := "imp", body := "from ${1} import ${2}", description := "", priority := 10,
    triggerKind := TriggerKind.WordBoundary, regexMatch := none,
    context := none, autoTrigger := false, filepath := "/all/B.snippets" }

/-- File A of the C1 scenario: filetype `python`. -/
def fileA : UltiSnipsFile :=
  { filepath := "/py/A.snippets", filetype := "python", clearsnippets := none,
    snippets := [impA] }

/-- File B of the C1 scenario: filetype `all`, inherited into every scope. -/
def fileB : UltiSnipsFile :=
  { filepath := "/all/B.snippets", filetype := "all", clearsnippets := none,
    snippets := [impB] }

/-- C1 evaluated at its failing input: two files of scope `python` both
define prefix `imp` (file A, filetype `python`, priority 0; file B, filetype
`all`, priority 10).  Whatever order they were loaded in, `getSnippets`
returns A's priority-0 definition: the replacement branch executes
`result[idx] = item`, a self-assignment, so the later higher-priority
definition never displaces the one already kept. -/
theorem c1_highest_priority_not_kept :
    ((getSnippets (fun ft => [ft]) [fileA, fileB] "python").map
      (fun s => (s.pfx, s.priority)) = [("imp", 0)]) ∧
    ((getSnippets (fun ft => [ft]) [fileB, fileA] "python").map
      (fun s => (s.pfx, s.priority)) = [("imp", 0)]) :=
  ⟨rfl, rfl⟩

/-- File C of the C2 scenario: filetype `python`, `clearsnippets 0`. -/
def fileC : UltiSnipsFile :=
  { filepath := "/py/C.snippets", filetype := "python", clearsnippets := some 0,
    snippets := [] }

/-- File D of the C2 scenario: filetype `all`, `clearsnippets -1`, one
priority `-1` snippet. -/
def fileD : UltiSnipsFile :=
  { filepath := "/all/D.snippets", filetype := "all", clearsnippets := some (-1),
    snippets := [{ pfx := "x", body := "", description := "", priority := -1,
                   triggerKind := TriggerKind.WordBoundary, regexMatch := none,
                   context := none, autoTrigger := false,
                   filepath := "/all/D.snippets" }] }

/-- C2 evaluated at its failing input: scope `python` loads a `python` file
with `clearsnippets 0` and an `all` file with `clearsnippets -1` holding a
priority `-1` snippet.  The accumulator treats the threshold `0` as unset
(JS falsy), the combined threshold becomes `-1` instead of `max 0 (-1) = 0`,
and the priority `-1` definition survives in either load order. -/
theorem c2_clear_threshold_not_max :
    ((getSnippets (fun ft => [ft]) [fileC, fileD] "python").map
      (fun s => (s.pfx, s.priority)) = [("x", -1)]) ∧
    ((getSnippets (fun ft => [ft]) [fileD, fileC] "python").map
      (fun s => (s.pfx, s.priority)) = [("x", -1)]) :=
  ⟨rfl, rfl⟩

/-- C3 evaluated at its failing input: two candidates with prefix `foo`,
one guarded by a context expression that evaluates truthy and one
unguarded.  `getTriggerSnippets` returns *both*: the loop records the
accepted guard's source text (`s.context`), not its prefix, in
`contextPrefixes`, so the later unguarded `foo` is never suppressed. -/
theorem c3_plain_prefix_not_suppressed :
    (getTriggerSnippets (fun _ => false) (fun _ => true) (fun s => s.body)
      [{ pfx := "foo", body := "G", description := "", priority := 0,
         triggerKind := TriggerKind.InWord, regexMatch := none,
         context := some "ok()", autoTrigger := false, filepath := "f" },
       { pfx := "foo", body := "P", description := "", priority := 0,
         triggerKind := TriggerKind.InWord, regexMatch := none,
         context := none, autoTrigger := false, filepath := "f" }]
      "foo" 3 false).map (fun e => (e.pfx, e.newText)) = [("foo", "G"), ("foo", "P")] := rfl

/-- C9 evaluated at its failing input: body `"${1} ${1:foo} `!p snip.rv`"`.
The first `${1}` records the empty default as `r''`; the later `${1:foo}`
should override it, but the guard compares the stored value against `"''"`
while every stored value starts with `r'`, so the override never fires and
the slot keeps `r''` instead of `r'foo'`. -/
theorem c9_first_empty_default_kept :
    buildPlaceholderValues (fun _ => "") "${1} ${1:foo} `!p snip.rv`" = [(1, "r''")] := rfl

theorem findIdx?_isSome_exists {α : Type} {p : α → Bool} :
    ∀ l : List α, (l.findIdx? p).isSome = true → ∃ x ∈ l, p x = true := by
  intro l
  induction l with
  | nil => intro h; simp [List.findIdx?] at h
  | cons a l ih =>
    intro h
    rw [List.findIdx?_cons] at h
    by_cases ha : p a = true
    · exact ⟨a, by simp, ha⟩
    · simp only [ha, if_false] at h
      obtain ⟨x, hx, hpx⟩ := ih (by simpa using h)
      exact ⟨x, by simp [hx], hpx⟩

theorem dedupStep_mem (acc : List SnippetEdit) (item x : SnippetEdit)
    (hx : x ∈ acc) : x ∈ dedupStep acc item := by
  rw [dedupStep]
  split
  · exact hx
  · exact List.mem_append_left _ hx

theorem foldl_dedup_grow :
    ∀ (l : List SnippetEdit) (acc : List SnippetEdit) (x : SnippetEdit),
      x ∈ acc → x ∈ l.foldl dedupStep acc := by
  intro l
  induction l with
  | nil => intro acc x hx; exact hx
  | cons a l ih => intro acc x hx; exact ih _ _ (dedupStep_mem _ _ _ hx)

theorem foldl_dedup_pairwise :
    ∀ (l : List SnippetEdit) (acc : List SnippetEdit),
      acc.Pairwise (fun a b => a.pfx ≠ b.pfx) →
      (l.foldl dedupStep acc).Pairwise (fun a b => a.pfx ≠ b.pfx) := by
  intro l
  induction l with
  | nil => intro acc h; exact h
  | cons a l ih =>
    intro acc h
    refine ih _ ?_
    rw [dedupStep]
    split
    · exact h
    · rename_i hno
      rw [List.pairwise_append]
      refine ⟨h, List.pairwise_singleton _ _, ?_⟩
      intro x hx b hb
      have hb2 : b = a := by simpa using hb
      subst hb2
      have hnone : acc.findIdx? (fun o => o.pfx == b.pfx) = none :=
        Option.not_isSome_iff_eq_none.mp (by simpa using hno)
      have := List.findIdx?_eq_none_iff.mp hnone x hx
      simpa using this

theorem foldl_dedup_first :
    ∀ (l : List SnippetEdit) (acc : List SnippetEdit) (e : SnippetEdit),
      e ∈ l.foldl dedupStep acc →
      e ∈ acc ∨ ((∀ x ∈ acc, x.pfx ≠ e.pfx) ∧
        l.find? (fun x => x.pfx == e.pfx) = some e) := by
  intro l
  induction l with
  | nil => intro acc e he; exact Or.inl he
  | cons a l ih =>
    intro acc e he
    rw [List.foldl_cons] at he
    rcases ih _ e he with hmem | ⟨hnone, hfind⟩
    · rw [dedupStep] at hmem
      split at hmem
      · exact Or.inl hmem
      · rename_i hno
        rcases List.mem_append.mp hmem with h | h
        · exact Or.inl h
        · have he2 : e = a := by simpa using h
          subst he2
          right
          have hnone2 : acc.findIdx? (fun o => o.pfx == e.pfx) = none :=
            Option.not_isSome_iff_eq_none.mp (by simpa using hno)
          have hpred := List.findIdx?_eq_none_iff.mp hnone2
          refine ⟨fun x hx => by simpa using hpred x hx, ?_⟩
          rw [List.find?_cons]
          simp
    · right
      have hacc : ∀ x ∈ acc, x.pfx ≠ e.pfx :=
        fun x hx => hnone x (dedupStep_mem _ _ _ hx)
      refine ⟨hacc, ?_⟩
      have hane : (a.pfx == e.pfx) = false := by
        rw [dedupStep] at hnone
        by_cases hs : (acc.findIdx? (fun o => o.pfx == a.pfx)).isSome = true
        · obtain ⟨x, hx, hpx⟩ := findIdx?_isSome_exists _ hs
          rw [if_pos hs] at hnone
          have hxe : x.pfx ≠ e.pfx := hnone x hx
          have hxa : x.pfx = a.pfx := by simpa using hpx
          simpa using hxa ▸ hxe
        · rw [if_neg hs] at hnone
          have hae : a.pfx ≠ e.pfx :=
            hnone a (List.mem_append_right _ (by simp))
          simpa using hae
      rw [List.find?_cons, hane]
      exact hfind

theorem foldl_dedup_represented :
    ∀ (l : List SnippetEdit) (acc : List SnippetEdit) (e : SnippetEdit),
      e ∈ l → ∃ x ∈ l.foldl dedupStep acc, x.pfx = e.pfx := by
  intro l
  induction l with
  | nil => intro acc e he; exact absurd he (List.not_mem_nil e)
  | cons a l ih =>
    intro acc e he
    rcases List.mem_cons.mp he with rfl | he
    · rw [List.foldl_cons]
      by_cases hs : (acc.findIdx? (fun o => o.pfx == e.pfx)).isSome = true
      · obtain ⟨x, hx, hpx⟩ := findIdx?_isSome_exists _ hs
        exact ⟨x, foldl_dedup_grow _ _ _ (dedupStep_mem _ _ _ hx), by simpa using hpx⟩
      · have ha : e ∈ dedupStep acc e := by
          rw [dedupStep]
          rw [if_neg hs]
          exact List.mem_append_right _ (by simp)
        exact ⟨e, foldl_dedup_grow _ _ _ ha, rfl⟩
    · rw [List.foldl_cons]
      exact ih _ e he

/-- C10: `ProviderManager.getTriggerSnippets` keeps at most one edit per
prefix — its result is pairwise distinct in `prefix` — and for every edit
any provider produced there is exactly one representative in the result:
the *first* edit with that prefix in provider-registration order (`find?`
over the concatenated provider outputs). -/
theorem c10_dedup_by_prefix (providerResults : List (List SnippetEdit)) :
    (managerGetTriggerSnippets providerResults).Pairwise (fun a b => a.pfx ≠ b.pfx) ∧
    (∀ e ∈ providerResults.flatten,
      ∃ x ∈ managerGetTriggerSnippets providerResults, x.pfx = e.pfx) ∧
    (∀ e ∈ managerGetTriggerSnippets providerResults,
      providerResults.flatten.find? (fun x => x.pfx == e.pfx) = some e) := by
  have hflat : managerGetTriggerSnippets providerResults
      = providerResults.flatten.foldl dedupStep [] := by
    rw [managerGetTriggerSnippets, List.foldl_flatten]
  refine ⟨?_, ?_, ?_⟩
  · rw [hflat]
    exact foldl_dedup_pairwise _ _ List.Pairwise.nil
  · intro e he
    rw [hflat]
    exact foldl_dedup_represented _ [] e he
  · intro e he
    rw [hflat] at he
    rcases foldl_dedup_first _ [] e he with h | ⟨-, h⟩
    · simp at h
    · exact h
